import Mathlib

/-!
Verification development for the rust-opse repository (an order-preserving
encryption library).  The Rust source operates on IEEE-754 doubles that are
constrained to integer values on the range/driver layer, and on genuinely
fractional doubles inside the hypergeometric sampler.

Embedding conventions, used consistently below:

* Integer-valued doubles (range endpoints, plaintexts, midpoints, tape
  indices) are modelled as `Int`.  For all concrete inputs appearing in the
  theorems these values are far below `2^53`, where double arithmetic on
  integers is exact, so the `Int` model agrees with the source bit for bit.
* Rust panics are modelled as `Except OpeError` errors; the error
  constructors follow the structured kinds of the specification (section 7).
* Possibly non-terminating recursion (the encryption driver's recursion and
  the samplers' loops) is modelled with an explicit fuel parameter; `none`
  means the fuel ran out, so a function that returns `none` for every fuel
  diverges.
* The sampler's doubles are modelled by the carrier `F` below: exact
  rationals extended with signed infinities and NaN, following the IEEE-754
  special-value rules.  Rounding is not modelled; every theorem proved over
  `F` depends only on signs, finiteness and exactly-representable values
  (dyadic rationals at tiny exponents), where IEEE arithmetic is exact, or
  on control flow that is insensitive to rounding.
* The transcendental operations (square root, natural logarithm) have no
  exact rational counterpart; they are modelled by computable rational
  surrogates `ratSqrt` and `ratLn` with the correct sign behaviour.  No
  theorem below depends on the value of a surrogate, only on signs and
  finiteness, which match IEEE-754.
* Cryptographic primitives (HMAC-SHA256, AES-256-CTR) and the
  hypergeometric sampler are abstracted as oracle parameters on the driver
  layer; theorems about the driver quantify over all oracles, hence hold in
  particular for the real primitives.
-/

/-- Structured error kinds of the specification, section 7.  The Rust code
collapses all of these into panics. -/
inductive OpeError where
  | invalidRange
  | rangeTooSmall
  | outOfDomain
  | invariantViolated
  | coinsExhausted
  | samplerDiverged
  | zeroSizeRange
  | nonBinaryCoin
  | nsampleNotInRange
  | inRangeTooSmallIn
  | outRangeTooSmallIn
  deriving DecidableEq, Repr

/-- Closed integer interval, from `ValueRange` in src/ope.rs and
src/stat.rs (both files define the identical structure).  The f64 endpoints
are integer-valued by construction (the constructor panics otherwise), so
they are modelled as `Int`. -/
structure ValueRange where
  start : Int
  stop : Int
  deriving DecidableEq, Repr

namespace ValueRange

/-- From `ValueRange::size`: the number of values in the range,
`end - start + 1`. -/
def size (r : ValueRange) : Int := r.stop - r.start + 1

/-- From `ValueRange::contains`: `start <= number && number <= end`. -/
def contains (r : ValueRange) (number : Int) : Prop :=
  r.start ≤ number ∧ number ≤ r.stop

instance (r : ValueRange) (n : Int) : Decidable (r.contains n) := by
  unfold contains; infer_instance

/-- From `ValueRange::new`: fails when `start > end` (the two
integrality panics of the source cannot fire in the `Int` model). -/
def new (start stop : Int) : Except OpeError ValueRange :=
  if start > stop then .error .invalidRange
  else .ok ⟨start, stop⟩

end ValueRange

/-- A coin tape.  The source passes fixed-size byte arrays (`[u8; 128]`
from the tape generator, `[u8; 32]` expected by src/stat.rs); the model
uses a function from index to byte value, and every embedded reader
accesses exactly the indices the source reads. -/
def Tape : Type := Nat → Nat

/-- All-zero tape, used for concrete scenarios. -/
def zeroTape : Tape := fun _ => 0

/-- Loop body of `sample_uniform` from src/stat.rs (lines 89-110),
one recursive step per `while` iteration.  State: current range
`[start, stop]` and `bit_counter`.  The `while current_range.size() > 1`
condition is checked first; inside the loop the source checks
`bit_counter > 31` (the tape it receives is `[u8; 32]`) and panics with
"Not enough coins.", then reads `seed_coins[bit_counter]`, requires the
byte to be 0 or 1 (panicking "Coins must be binary units" otherwise), and
halves the range at `mid = (start + end).div_euclid(2)`.  Rust
`div_euclid` on these values is floor division, i.e. `Int.ediv`. -/
def sampleUniformAux (start stop : Int) (coins : Tape) (bc : Nat) :
    Except OpeError Int :=
  if stop - start + 1 ≤ 1 then .ok start
  else if bc > 31 then .error .coinsExhausted
  else
    let mid : Int := Int.ediv (start + stop) 2
    let bit : Nat := coins bc
    if bit = 0 then sampleUniformAux start mid coins (bc + 1)
    else if bit = 1 then sampleUniformAux (mid + 1) stop coins (bc + 1)
    else .error .nonBinaryCoin
  termination_by 32 - bc
  decreasing_by all_goals omega

/-- From `sample_uniform` in src/stat.rs (lines 78-113): zero-size check,
then the binary-search loop, then `current_range.start` is returned. -/
def sample_uniform (in_range : ValueRange) (seed_coins : Tape) :
    Except OpeError Int :=
  if in_range.size = 0 then .error .zeroSizeRange
  else sampleUniformAux in_range.start in_range.stop seed_coins 0

/-- Instrumented twin of `sampleUniformAux` that additionally returns how
many tape entries were read.  Sharing the exact recursion structure, it is
related to the source embedding by `sampleUniformAuxCount_fst`. -/
def sampleUniformAuxCount (start stop : Int) (coins : Tape) (bc : Nat) :
    Except OpeError Int × Nat :=
  if stop - start + 1 ≤ 1 then (.ok start, 0)
  else if bc > 31 then (.error .coinsExhausted, 0)
  else
    let mid : Int := Int.ediv (start + stop) 2
    let bit : Nat := coins bc
    if bit = 0 then
      let r := sampleUniformAuxCount start mid coins (bc + 1)
      (r.1, r.2 + 1)
    else if bit = 1 then
      let r := sampleUniformAuxCount (mid + 1) stop coins (bc + 1)
      (r.1, r.2 + 1)
    else (.error .nonBinaryCoin, 1)
  termination_by 32 - bc
  decreasing_by all_goals omega

/-- Number of tape entries read by `sample_uniform` on the given inputs. -/
def sampleUniformConsumed (in_range : ValueRange) (seed_coins : Tape) : Nat :=
  if in_range.size = 0 then 0
  else (sampleUniformAuxCount in_range.start in_range.stop seed_coins 0).2

/-- Oracle type abstracting `HGD::rhyper` as consumed by `sample_hgd`:
arguments are (nsample_index, in_size, out_size - in_size, coins), result
is the sampled value.  Theorems about the driver quantify over all
oracles, so they hold for the real sampler in particular. -/
def RhyperOracle : Type := Int → Int → Int → Tape → Int

/-- From `sample_hgd` in src/stat.rs (lines 38-76): positivity checks on
both ranges, the `in_range.contains(nsample)` check (the source really
checks the INPUT range even though `nsample` is a value of the output
space), the degenerate equal-size branch, the call to `HGD::rhyper`, and
the final containment check. -/
def sample_hgd (rhyper : RhyperOracle) (in_range out_range : ValueRange)
    (nsample : Int) (seed_coins : Tape) : Except OpeError Int :=
  let in_size := in_range.size
  let out_size := out_range.size
  if in_size < 1 then .error .inRangeTooSmallIn
  else if out_size < 1 then .error .outRangeTooSmallIn
  else if ¬ in_range.contains nsample then .error .nsampleNotInRange
  else
    let nsample_index := nsample - out_range.start + 1
    if in_size = out_size then .ok (in_range.start + nsample_index - 1)
    else
      let in_sample_num := rhyper nsample_index in_size (out_size - in_size) seed_coins
      if in_sample_num = 0 then .ok in_range.start
      else
        let in_sample := in_range.start + in_sample_num - 1
        if ¬ in_range.contains in_sample then .error .invariantViolated
        else .ok in_sample

/-- Ceiling of `s / 2` on integers: `(out_size / 2_f64).ceil()` of the
source, exact for every integer `s` since `⌈s/2⌉ = ⌊(s+1)/2⌋`. -/
def ceilHalf (s : Int) : Int := Int.ediv (s + 1) 2

/-- Midpoint computation of `encrypt_recursive` in src/ope.rs (lines
84-87): `mid = out_edge + (out_size / 2).ceil()` where `out_edge` and
`out_size` are taken from the given range.  The source applies this to
`self.out_range` (the ORIGINAL output range) at every recursion level. -/
def opeMid (out_range : ValueRange) : Int :=
  (out_range.start - 1) + ceilHalf out_range.size

/-- Modelled from the spec (section 4.9), for comparison with the code:
the split point is computed from the CURRENT output range `O` of the
recursion, `mid = (O.start - 1) + ⌈O.size() / 2⌉`.  The formula is the
same as `opeMid`; the claims differ in which range it is applied to. -/
def specMid (currentOut : ValueRange) : Int :=
  (currentOut.start - 1) + ceilHalf currentOut.size

/-- Oracle type abstracting `OPE::tape_gen` (the key and the HMAC/AES
pipeline folded in): label to 128-bit tape. -/
def TapeOracle : Type := Int → Tape

/-- OPE context from src/ope.rs.  The source stores `encryption_key`,
`in_range`, `out_range`; the key only ever feeds `tape_gen`, and the
hypergeometric sampler is reached only through `stat::sample_hgd`, so the
model carries those two dependencies as oracles instead of the raw key. -/
structure OPE where
  tapeOracle : TapeOracle
  rhyperOracle : RhyperOracle
  in_range : ValueRange
  out_range : ValueRange

/-- From `OPE::encrypt_recursive` in src/ope.rs (lines 79-127), with an
explicit fuel parameter (`none` = the recursion did not finish within
`fuel` levels; a result of `none` for EVERY fuel means divergence).

Faithful to the source: `in_size`, `out_size`, `in_edge`, `out_edge` and
`mid` are all computed from `self.in_range` / `self.out_range` — the
ORIGINAL ranges stored in the context — while the leaf test and the
`sample_hgd` call use the current parameters `in_range`, `out_range`.
The two `ValueRange::new` calls can panic (modelled as errors) when the
computed endpoints are inverted. -/
def encrypt_recursive (o : OPE) (fuel : Nat) (plaintext : Int)
    (in_range out_range : ValueRange) : Option (Except OpeError Int) :=
  match fuel with
  | 0 => none
  | fuel + 1 =>
    let in_size := o.in_range.size
    let out_size := o.out_range.size
    let in_edge := o.in_range.start - 1
    let out_edge := o.out_range.start - 1
    let mid := out_edge + ceilHalf out_size
    if in_range.size = 1 then
      let in_range_min := in_range.start
      let coins := o.tapeOracle in_range_min
      some (sample_uniform out_range coins)
    else
      let coins := o.tapeOracle mid
      match sample_hgd o.rhyperOracle in_range out_range mid coins with
      | .error e => some (.error e)
      | .ok x =>
        if plaintext ≤ x then
          match ValueRange.new (in_edge + 1) x with
          | .error e => some (.error e)
          | .ok new_in_range =>
            match ValueRange.new (out_edge + 1) mid with
            | .error e => some (.error e)
            | .ok new_out_range =>
              encrypt_recursive o fuel plaintext new_in_range new_out_range
        else
          match ValueRange.new (x + 1) (in_edge + in_size) with
          | .error e => some (.error e)
          | .ok new_in_range =>
            match ValueRange.new (mid + 1) (out_edge + out_size) with
            | .error e => some (.error e)
            | .ok new_out_range =>
              encrypt_recursive o fuel plaintext new_in_range new_out_range

/-- From `OPE::encrypt` in src/ope.rs (lines 70-77): the domain check,
then the recursion started on the full ranges. -/
def encrypt (o : OPE) (fuel : Nat) (plaintext : Int) :
    Option (Except OpeError Int) :=
  if ¬ o.in_range.contains plaintext then some (.error .outOfDomain)
  else encrypt_recursive o fuel plaintext o.in_range o.out_range

/-- Label serialization of `OPE::tape_gen` (src/ope.rs line 132):
`data.to_string()` on the integer-valued f64 label.  Rust's `Display` for
a finite double whose value is an integer of magnitude below 2^53 prints
the plain decimal digits with NO trailing ".0" (`23.0_f64.to_string()`
is "23"), which on integers coincides with `Int` printing. -/
def labelString (data : Int) : String := toString data

/-- UTF-8 bytes of a label string.  Labels are ASCII (digits and an
optional leading minus sign), where UTF-8 is the identity on code
points. -/
def strBytes (s : String) : List Nat := s.data.map Char.toNat

/-- Oracle abstracting the keyed HMAC-SHA256 → AES-256-CTR → bit
expansion pipeline of `tape_gen` (src/ope.rs lines 131-149): serialized
label bytes in, 128-bit tape out. -/
def PrfOracle : Type := List Nat → Tape

/-- From `OPE::tape_gen` (src/ope.rs lines 129-150): serialize the label,
feed the bytes to the keyed pipeline. -/
def tape_gen (prf : PrfOracle) (data : Int) : Tape :=
  prf (strBytes (labelString data))

/-- Extended-rational model of an IEEE-754 double: an exact rational, a
signed infinity (`inf true` is positive infinity), or NaN.  Finite
arithmetic is exact (rounding is not modelled) and the special values
follow the IEEE-754 rules; signed zeros are not distinguished, and a zero
divisor behaves as IEEE +0 (the only zeros produced in the runs analysed
here are positive). -/
inductive F where
  | fin : ℚ → F
  | inf : Bool → F
  | nan : F
  deriving DecidableEq

namespace F

/-- IEEE negation. -/
def neg : F → F
  | fin q => fin (-q)
  | inf s => inf (!s)
  | nan => nan

/-- IEEE addition, exact on finite operands. -/
def add : F → F → F
  | nan, _ => nan
  | _, nan => nan
  | fin p, fin q => fin (p + q)
  | fin _, inf s => inf s
  | inf s, fin _ => inf s
  | inf s, inf t => if s = t then inf s else nan

/-- IEEE subtraction (addition of the negation, which is exact for
IEEE-754). -/
def sub (a b : F) : F := add a (neg b)

/-- IEEE multiplication, exact on finite operands. -/
def mul : F → F → F
  | nan, _ => nan
  | _, nan => nan
  | fin p, fin q => fin (p * q)
  | fin p, inf s => if p = 0 then nan else if 0 < p then inf s else inf (!s)
  | inf s, fin q => if q = 0 then nan else if 0 < q then inf s else inf (!s)
  | inf s, inf t => if s = t then inf true else inf false

/-- IEEE division, exact on finite operands.  A finite nonzero value
divided by zero gives the infinity carrying the dividend's sign (the
divisor is treated as IEEE +0). -/
def div : F → F → F
  | nan, _ => nan
  | _, nan => nan
  | fin p, fin q =>
      if q = 0 then
        if p = 0 then nan else if 0 < p then inf true else inf false
      else fin (p / q)
  | fin _, inf _ => fin 0
  | inf s, fin q => if 0 ≤ q then inf s else inf (!s)
  | inf s, inf _ => if s then nan else nan

/-- IEEE strict less-than (the source's `<` and `>` on f64); false
whenever an operand is NaN. -/
def flt : F → F → Prop
  | nan, _ => False
  | _, nan => False
  | fin p, fin q => p < q
  | fin _, inf s => s = true
  | inf s, fin _ => s = false
  | inf s, inf t => s = false ∧ t = true

instance : (a b : F) → Decidable (flt a b)
  | nan, fin _ => inferInstanceAs (Decidable False)
  | nan, inf _ => inferInstanceAs (Decidable False)
  | nan, nan => inferInstanceAs (Decidable False)
  | fin _, nan => inferInstanceAs (Decidable False)
  | inf _, nan => inferInstanceAs (Decidable False)
  | fin p, fin q => inferInstanceAs (Decidable (p < q))
  | fin _, inf s => inferInstanceAs (Decidable (s = true))
  | inf s, fin _ => inferInstanceAs (Decidable (s = false))
  | inf s, inf t => inferInstanceAs (Decidable (s = false ∧ t = true))

/-- IEEE less-or-equal (the source's `<=` and `>=` on f64); false
whenever an operand is NaN. -/
def fle : F → F → Prop
  | nan, _ => False
  | _, nan => False
  | fin p, fin q => p ≤ q
  | fin _, inf s => s = true
  | inf s, fin _ => s = false
  | inf s, inf t => s = false ∨ t = true

instance : (a b : F) → Decidable (fle a b)
  | nan, fin _ => inferInstanceAs (Decidable False)
  | nan, inf _ => inferInstanceAs (Decidable False)
  | nan, nan => inferInstanceAs (Decidable False)
  | fin _, nan => inferInstanceAs (Decidable False)
  | inf _, nan => inferInstanceAs (Decidable False)
  | fin p, fin q => inferInstanceAs (Decidable (p ≤ q))
  | fin _, inf s => inferInstanceAs (Decidable (s = true))
  | inf s, fin _ => inferInstanceAs (Decidable (s = false))
  | inf s, inf t => inferInstanceAs (Decidable (s = false ∨ t = true))

/-- Rust `f64::min`: returns the other operand when one is NaN, else the
smaller one. -/
def fmin : F → F → F
  | nan, b => b
  | a, nan => a
  | a, b => if flt a b then a else b

/-- Rust `f64::max`. -/
def fmax : F → F → F
  | nan, b => b
  | a, nan => a
  | a, b => if flt b a then a else b

/-- Rust `f64::floor`. -/
def floorF : F → F
  | fin q => fin (⌊q⌋ : ℤ)
  | x => x

/-- Rust `f64::round` (half away from zero). -/
def roundF : F → F
  | fin q => if 0 ≤ q then fin (⌊q + 1/2⌋ : ℤ) else fin (-(⌊-q + 1/2⌋ : ℤ) : ℤ)
  | x => x

/-- Rust `f64::abs`. -/
def absF : F → F
  | fin q => fin |q|
  | inf _ => inf true
  | nan => nan

end F

/-- Binary-search step for the integer square root helper (structural
fuel so the kernel can evaluate it). -/
def isqrtGo (n : Nat) : Nat → Nat → Nat → Nat
  | 0, lo, _ => lo
  | fuel + 1, lo, hi =>
      if hi ≤ lo + 1 then lo
      else
        let mid := (lo + hi) / 2
        if mid * mid ≤ n then isqrtGo n fuel mid hi else isqrtGo n fuel lo mid

/-- Integer square root used by the `ratSqrt` surrogate. -/
def isqrt (n : Nat) : Nat := isqrtGo n 130 0 (n + 1)

/-- Computable rational surrogate for the square root of a nonnegative
rational.  The exact IEEE value is irrational in general and cannot be a
definitional rational; no theorem in this file depends on the value of
this surrogate, only on its sign (nonnegative on nonnegative input, like
IEEE sqrt), which is immediate because it is a quotient of naturals. -/
def ratSqrt (q : ℚ) : ℚ := (isqrt (q.num.toNat * q.den) : ℚ) / (q.den : ℚ)

/-- Rust `f64::sqrt` over the model: NaN on negative input, the
`ratSqrt` surrogate on finite nonnegative input. -/
def sqrtF : F → F
  | F.fin q => if q < 0 then F.nan else F.fin (ratSqrt q)
  | F.inf true => F.inf true
  | F.inf false => F.nan
  | F.nan => F.nan

/-- Base-two logarithm helper with structural fuel, used only by the
`ratLn` surrogate. -/
def nlog2Go : Nat → Nat → Nat
  | 0, _ => 0
  | fuel + 1, n => if n ≤ 1 then 0 else nlog2Go fuel (n / 2) + 1

/-- Computable rational surrogate for the natural logarithm of a positive
rational (a crude base-two magnitude estimate).  No theorem in this file
depends on its value. -/
def ratLn (q : ℚ) : ℚ := (nlog2Go 200 q.num.toNat : ℚ) - (nlog2Go 200 q.den : ℚ)

/-- Rust `f64::ln` over the model: NaN on negative input, negative
infinity at zero, the `ratLn` surrogate on positive finite input. -/
def lnF : F → F
  | F.fin q => if q < 0 then F.nan else if q = 0 then F.inf false else F.fin (ratLn q)
  | F.inf true => F.inf true
  | F.inf false => F.nan
  | F.nan => F.nan

/-- The f64 machine epsilon `std::f64::EPSILON = 2^-52`, exact. -/
def epsF : F := F.fin (1 / 4503599627370496)

/-- The f64 value of `2.0 * std::f64::consts::PI` (exact: the double
nearest pi is 884279719003555 / 2^48, and doubling is exact). -/
def twoPiF : F := F.fin (884279719003555 / 140737488355328)

/-- Rust `as u64` cast of an f64: truncation toward zero, saturating at
the ends, 0 for NaN.  Used by `loggam` for `(7.0 - x) as u64`. -/
def toU64Trunc : F → Nat
  | F.fin q => if q ≤ 0 then 0 else min (⌊q⌋.toNat) (2 ^ 64 - 1)
  | F.inf true => 2 ^ 64 - 1
  | F.inf false => 0
  | F.nan => 0

/-- From `PRNG::numerify_coins` (src/hgd.rs lines 19-25): big-endian fold
of the first 32 tape entries into a u32.  The `(out << 1)` is a u32 shift
(truncation to 32 bits) and `| *bit as u32` ORs the byte in. -/
def numerify_coins (coins : Tape) : Nat :=
  (List.range 32).foldl (fun out i => Nat.lor ((out * 2) % 2 ^ 32) (coins i)) 0

/-- From `PRNG::draw` (src/hgd.rs lines 26-28): the numerified coins
divided by `2^32 - 1`.  Both operands are exactly representable doubles;
at the tapes used in the theorems below the quotient is exact. -/
def draw (coins : Tape) : F :=
  F.div (F.fin (numerify_coins coins)) (F.fin ((2 : ℚ) ^ 32 - 1))

/-- Leading coefficient `a[9]` of `HGD::loggam` (src/hgd.rs lines
226-232), exact value of the source's decimal literal. -/
def loggamA9 : ℚ := -1392432216905900 / 10 ^ 15

/-- Coefficients `a[8]` down to `a[0]` of `HGD::loggam`, in the order the
Horner loop `for k in (0..=8).rev()` consumes them; exact values of the
source's decimal literals. -/
def loggamA8to0 : List ℚ := [
  1796443723688307 / 10 ^ 16, -2955065359477124 / 10 ^ 17,
  6410256410256410 / 10 ^ 18, -1917526917526918 / 10 ^ 18,
  8417508417508418 / 10 ^ 19, -5952380952380952 / 10 ^ 19,
  7936507936507937 / 10 ^ 19, -2777777777777778 / 10 ^ 18,
  8333333333333333 / 10 ^ 17]

/-- Correction loop of `HGD::loggam` (src/hgd.rs lines 257-262):
`for _k in 1..=n { gl -= (x0 - 1.0).ln(); x0 -= 1.0; }`. -/
def loggamShift : Nat → F → F → F
  | 0, gl, _ => gl
  | n + 1, gl, x0 =>
      loggamShift n (F.sub gl (lnF (F.sub x0 (F.fin 1)))) (F.sub x0 (F.fin 1))

/-- From `HGD::loggam` (src/hgd.rs lines 213-265): early return 0 within
epsilon of 1 or 2; shift `x` by `n = (7.0 - x) as u64` into the
asymptotic regime when `x <= 7`; Horner evaluation of the correction
series in `1/x0^2`; the Rocktaeschel main term (`xp` is the exact double
`2.0 * PI_64`); then the downward correction loop.  The transcendental
`ln` is the `ratLn` surrogate; no theorem depends on its values. -/
def loggam (x : F) : F :=
  if F.flt (F.absF (F.sub x (F.fin 1))) epsF
      ∨ F.flt (F.absF (F.sub x (F.fin 2))) epsF then F.fin 0
  else
    let n : Nat := if F.fle x (F.fin 7) then toU64Trunc (F.sub (F.fin 7) x) else 0
    let x0 : F := if F.fle x (F.fin 7) then F.add x (F.fin (n : ℚ)) else x
    let x2 : F := F.div (F.fin 1) (F.mul x0 x0)
    let xp : F := twoPiF
    let gl0 : F := loggamA8to0.foldl (fun g a => F.add (F.mul g x2) (F.fin a)) (F.fin loggamA9)
    let gl : F := F.sub (F.add (F.add (F.div gl0 x0) (F.mul (F.fin (1/2)) (lnF xp)))
      (F.mul (F.sub x0 (F.fin (1/2))) (lnF x0))) x0
    if F.fle x (F.fin 7) then loggamShift n gl x0 else gl

/-- Loop of `HGD::hypergeometric_hyp` (src/hgd.rs lines 91-101), one
recursive step per `while y > 0.0` iteration, with explicit fuel.  The
source draws `u` afresh each iteration, but the PRNG is stateless (the
tape is never advanced), so every draw returns the same value and it is
passed in once.  Loop body: `y -= (u + y/(d1 + k)).floor(); k -= 1;`
then break when `k == 0`. -/
def hypLoop (u d1 : F) : Nat → F → F → Option F
  | 0, _, _ => none
  | fuel + 1, y, k =>
      if F.flt (F.fin 0) y then
        let y' := F.sub y (F.floorF (F.add u (F.div y (F.add d1 k))))
        let k' := F.sub k (F.fin 1)
        if k' = F.fin 0 then some y'
        else hypLoop u d1 fuel y' k'
      else some y

/-- From `HGD::hypergeometric_hyp` (src/hgd.rs lines 80-109):
`d1 = bad + good - sample`, `d2 = min(good, bad)`, the drawing loop
started at `y = d2`, `k = sample`, then `z = d2 - y`, flipped to
`sample - z` when `good > bad`. -/
def hypergeometric_hyp (fuel : Nat) (coins : Tape) (good bad sample : F) :
    Option F :=
  let d1 := F.sub (F.add bad good) sample
  let d2 := F.fmin good bad
  match hypLoop (draw coins) d1 fuel d2 sample with
  | none => none
  | some y =>
    let z := F.sub d2 y
    some (if F.flt bad good then F.sub sample z else z)

/-- The constant `D1` of `HGD::hypergeometric_hrua` (src/hgd.rs line
120), exact value of the source's decimal literal. -/
def hruaD1 : F := F.fin (17155277699214135 / 10 ^ 16)

/-- The constant `D2` of `HGD::hypergeometric_hrua` (src/hgd.rs line
121), exact value of the source's decimal literal. -/
def hruaD2 : F := F.fin (8989161620588988 / 10 ^ 16)

/-- The `mingoodbad` quantity of `HGD::hypergeometric_hrua` (line 123). -/
def hruaMingoodbad (good bad : F) : F := F.fmin good bad

/-- The `maxgoodbad` quantity of `HGD::hypergeometric_hrua` (line 124). -/
def hruaMaxgoodbad (good bad : F) : F := F.fmax good bad

/-- The `popsize` quantity of `HGD::hypergeometric_hrua` (line 129). -/
def hruaPopsize (good bad : F) : F := F.add good bad

/-- The `m` quantity of `HGD::hypergeometric_hrua` (line 133):
`min(sample, popsize - sample)`. -/
def hruaM (good bad sample : F) : F :=
  F.fmin sample (F.sub (hruaPopsize good bad) sample)

/-- The `d4` quantity of `HGD::hypergeometric_hrua` (line 137):
`mingoodbad / popsize`. -/
def hruaD4 (good bad : F) : F :=
  F.div (hruaMingoodbad good bad) (hruaPopsize good bad)

/-- The `d5` quantity of `HGD::hypergeometric_hrua` (line 138):
`1.0 - d4`. -/
def hruaD5 (good bad : F) : F := F.sub (F.fin 1) (hruaD4 good bad)

/-- The `d6` quantity of `HGD::hypergeometric_hrua` (line 139):
`m * d4 + 0.5`. -/
def hruaD6 (good bad sample : F) : F :=
  F.add (F.mul (hruaM good bad sample) (hruaD4 good bad)) (F.fin (1/2))

/-- The `d7` quantity of `HGD::hypergeometric_hrua` (line 140):
`sqrt((popsize - m) * sample * d4 * d5 / (popsize - 1) + 0.5)`. -/
def hruaD7 (good bad sample : F) : F :=
  sqrtF (F.add (F.div (F.mul (F.mul (F.mul
    (F.sub (hruaPopsize good bad) (hruaM good bad sample)) sample)
    (hruaD4 good bad)) (hruaD5 good bad))
    (F.sub (hruaPopsize good bad) (F.fin 1))) (F.fin (1/2)))

/-- The `d8` quantity of `HGD::hypergeometric_hrua` (line 141):
`D1 * d7 + D2`. -/
def hruaD8 (good bad sample : F) : F :=
  F.add (F.mul hruaD1 (hruaD7 good bad sample)) hruaD2

/-- The `d9` quantity of `HGD::hypergeometric_hrua` (line 142):
`(m + 1.0) * (mingoodbad + 1.0) / (popsize + 2.0)` — note: no flooring
in the source. -/
def hruaD9 (good bad sample : F) : F :=
  F.div (F.mul (F.add (hruaM good bad sample) (F.fin 1))
    (F.add (hruaMingoodbad good bad) (F.fin 1)))
    (F.add (hruaPopsize good bad) (F.fin 2))

/-- The `d10` quantity of `HGD::hypergeometric_hrua` (line 143): the sum
of the four `loggam` terms evaluated at the (unfloored) `d9`. -/
def hruaD10 (good bad sample : F) : F :=
  F.add (F.add (F.add
    (loggam (F.add (hruaD9 good bad sample) (F.fin 1)))
    (loggam (F.add (F.sub (hruaMingoodbad good bad) (hruaD9 good bad sample)) (F.fin 1))))
    (loggam (F.add (F.sub (hruaM good bad sample) (hruaD9 good bad sample)) (F.fin 1))))
    (loggam (F.add (F.add (F.sub (hruaMaxgoodbad good bad) (hruaM good bad sample))
      (hruaD9 good bad sample)) (F.fin 1)))

/-- The `d11` quantity of `HGD::hypergeometric_hrua` (line 146):
`min(min(m, mingoodbad) + 1.0, (d6 + 16.0 * d7).round())`. -/
def hruaD11 (good bad sample : F) : F :=
  F.fmin (F.add (F.fmin (hruaM good bad sample) (hruaMingoodbad good bad)) (F.fin 1))
    (F.roundF (F.add (hruaD6 good bad sample) (F.mul (F.fin 16) (hruaD7 good bad sample))))

/-- Rejection loop of `HGD::hypergeometric_hrua` (src/hgd.rs lines
159-199), one recursive step per `loop` iteration.  State: the iteration
counter `count` (an i32 in the source, incremented at the top of each
pass; `panic!()` fires when it reaches 10, BEFORE that pass's body).  The
draws `x`, `y` are hoisted: the PRNG is stateless so each draw returns
the same value.  The fuel is structural recursion bookkeeping only; the
caller passes 10, which the `count == 10` check is always reached
within. -/
def hruaLoop (x y d6 d8 d10 d11 mingoodbad m maxgoodbad : F) :
    Nat → Int → Option (Except OpeError F)
  | 0, _ => none
  | fuel + 1, count =>
      let count := count + 1
      if count = 10 then some (.error .samplerDiverged)
      else
        let w := F.add d6 (F.div (F.mul d8 (F.sub y (F.fin (1/2)))) x)
        if F.flt w epsF ∨ F.fle d11 w then
          hruaLoop x y d6 d8 d10 d11 mingoodbad m maxgoodbad fuel count
        else
          let z := F.floorF w
          let t := F.sub d10 (F.add (F.add (F.add
            (loggam (F.add z (F.fin 1)))
            (loggam (F.add (F.sub mingoodbad z) (F.fin 1))))
            (loggam (F.add (F.sub m z) (F.fin 1))))
            (loggam (F.add (F.add (F.sub maxgoodbad m) z) (F.fin 1))))
          if F.fle (F.sub (F.mul x (F.sub (F.fin 4) x)) (F.fin 3)) t then
            some (.ok z)
          else if F.fle (F.fin 1) (F.mul x (F.sub x t)) then
            hruaLoop x y d6 d8 d10 d11 mingoodbad m maxgoodbad fuel count
          else if F.fle (F.mul (F.fin 2) (lnF x)) t then
            some (.ok z)
          else
            hruaLoop x y d6 d8 d10 d11 mingoodbad m maxgoodbad fuel count

/-- Instrumented twin of `hruaLoop` that additionally returns the number
of executed draw-and-test bodies (the `panic!()` fires before the body of
its pass, so that pass contributes 0).  Related to `hruaLoop` by
`hruaLoopCount_fst`. -/
def hruaLoopCount (x y d6 d8 d10 d11 mingoodbad m maxgoodbad : F) :
    Nat → Int → Option (Except OpeError F × Nat)
  | 0, _ => none
  | fuel + 1, count =>
      let count := count + 1
      if count = 10 then some (.error .samplerDiverged, 0)
      else
        let w := F.add d6 (F.div (F.mul d8 (F.sub y (F.fin (1/2)))) x)
        if F.flt w epsF ∨ F.fle d11 w then
          (hruaLoopCount x y d6 d8 d10 d11 mingoodbad m maxgoodbad fuel count).map
            (fun r => (r.1, r.2 + 1))
        else
          let z := F.floorF w
          let t := F.sub d10 (F.add (F.add (F.add
            (loggam (F.add z (F.fin 1)))
            (loggam (F.add (F.sub mingoodbad z) (F.fin 1))))
            (loggam (F.add (F.sub m z) (F.fin 1))))
            (loggam (F.add (F.add (F.sub maxgoodbad m) z) (F.fin 1))))
          if F.fle (F.sub (F.mul x (F.sub (F.fin 4) x)) (F.fin 3)) t then
            some (.ok z, 1)
          else if F.fle (F.fin 1) (F.mul x (F.sub x t)) then
            (hruaLoopCount x y d6 d8 d10 d11 mingoodbad m maxgoodbad fuel count).map
              (fun r => (r.1, r.2 + 1))
          else if F.fle (F.mul (F.fin 2) (lnF x)) t then
            some (.ok z, 1)
          else
            (hruaLoopCount x y d6 d8 d10 d11 mingoodbad m maxgoodbad fuel count).map
              (fun r => (r.1, r.2 + 1))

/-- From `HGD::hypergeometric_hrua` (src/hgd.rs lines 110-212): the setup
quantities (named definitions above, one per source line), the rejection
loop started at `count = 0`, then the two corrections
`if good > bad { z = m - z }` and `if m < sample { z = good - z }`. -/
def hypergeometric_hrua (coins : Tape) (good bad sample : F) :
    Option (Except OpeError F) :=
  match hruaLoop (draw coins) (draw coins)
      (hruaD6 good bad sample) (hruaD8 good bad sample)
      (hruaD10 good bad sample) (hruaD11 good bad sample)
      (hruaMingoodbad good bad) (hruaM good bad sample)
      (hruaMaxgoodbad good bad) 10 0 with
  | none => none
  | some (.error e) => some (.error e)
  | some (.ok z0) =>
    let z1 := if F.flt bad good then F.sub (hruaM good bad sample) z0 else z0
    let z2 := if F.flt (hruaM good bad sample) sample then F.sub good z1 else z1
    some (.ok z2)

/-- From `HGD::rhyper` (src/hgd.rs lines 68-79): dispatch on `kk > 10`
between the HRUA and HYP regimes.  The fuel feeds the HYP loop only. -/
def rhyper (fuel : Nat) (coins : Tape) (kk nn1 nn2 : F) :
    Option (Except OpeError F) :=
  if F.flt (F.fin 10) kk then hypergeometric_hrua coins nn1 nn2 kk
  else (hypergeometric_hyp fuel coins nn1 nn2 kk).map .ok

/-- Shape of the per-iteration quantity `w` of the rejection loop, as a
function of the loop arguments. -/
def hruaW (x y d6 d8 : F) : F :=
  F.add d6 (F.div (F.mul d8 (F.sub y (F.fin (1/2)))) x)

/-! ## Theorems -/

theorem sampleUniformAuxCount_fst (start stop : Int) (coins : Tape) (bc : Nat) :
    (sampleUniformAuxCount start stop coins bc).1 =
      sampleUniformAux start stop coins bc := by
  induction start, stop, coins, bc using sampleUniformAux.induct with
  | case1 start stop coins bc h =>
      rw [sampleUniformAuxCount, sampleUniformAux]
      simp [h]
  | case2 start stop coins bc h h2 =>
      rw [sampleUniformAuxCount, sampleUniformAux]
      simp [h, h2]
  | case3 start stop coins bc h h2 mid bit h3 ih =>
      rw [sampleUniformAuxCount, sampleUniformAux]
      simp only [if_neg h, if_neg h2, if_pos h3]
      exact ih
  | case4 start stop coins bc h h2 mid bit h3 h4 ih =>
      rw [sampleUniformAuxCount, sampleUniformAux]
      simp only [if_neg h, if_neg h2, if_neg h3, if_pos h4]
      exact ih
  | case5 start stop coins bc h h2 mid h3 h4 =>
      rw [sampleUniformAuxCount, sampleUniformAux]
      simp [h, h2, h3, h4]


namespace F

theorem add_fin (p q : ℚ) : add (fin p) (fin q) = fin (p + q) := rfl

theorem sub_fin (p q : ℚ) : sub (fin p) (fin q) = fin (p - q) := by
  show add (fin p) (neg (fin q)) = fin (p - q)
  rw [neg, add, sub_eq_add_neg]

theorem mul_fin (p q : ℚ) : mul (fin p) (fin q) = fin (p * q) := rfl

theorem div_fin (p : ℚ) {q : ℚ} (h : q ≠ 0) : div (fin p) (fin q) = fin (p / q) := by
  rw [div, if_neg h]

theorem div_fin_zero_neg {p : ℚ} (h : p < 0) : div (fin p) (fin 0) = inf false := by
  rw [div, if_pos rfl, if_neg (ne_of_lt h), if_neg (not_lt.2 h.le)]

theorem add_fin_neginf (p : ℚ) : add (fin p) (inf false) = inf false := rfl

theorem flt_fin (p q : ℚ) : flt (fin p) (fin q) ↔ p < q := Iff.rfl

theorem fle_fin (p q : ℚ) : fle (fin p) (fin q) ↔ p ≤ q := Iff.rfl

theorem flt_neginf_fin (q : ℚ) : flt (inf false) (fin q) := rfl

theorem fmin_fin (p q : ℚ) : fmin (fin p) (fin q) = fin (min p q) := by
  show (if flt (fin p) (fin q) then fin p else fin q) = fin (min p q)
  by_cases h : p < q
  · rw [if_pos ((flt_fin p q).2 h), min_eq_left h.le]
  · rw [if_neg (fun hc => h ((flt_fin p q).1 hc)), min_eq_right (not_lt.1 h)]

theorem fmax_fin (p q : ℚ) : fmax (fin p) (fin q) = fin (max p q) := by
  show (if flt (fin q) (fin p) then fin p else fin q) = fin (max p q)
  by_cases h : q < p
  · rw [if_pos ((flt_fin q p).2 h), max_eq_left h.le]
  · rw [if_neg (fun hc => h ((flt_fin q p).1 hc)), max_eq_right (not_lt.1 h)]

theorem floorF_fin (q : ℚ) : floorF (fin q) = fin (⌊q⌋ : ℤ) := rfl

theorem absF_fin (q : ℚ) : absF (fin q) = fin |q| := rfl

end F

theorem sqrtF_fin {q : ℚ} (h : 0 ≤ q) : sqrtF (F.fin q) = F.fin (ratSqrt q) := by
  rw [sqrtF, if_neg (not_lt.2 h)]

theorem ratSqrt_nonneg (q : ℚ) : 0 ≤ ratSqrt q :=
  div_nonneg (Nat.cast_nonneg _) (Nat.cast_nonneg _)

theorem numerify_coins_zero {coins : Tape} (h : ∀ i, i < 32 → coins i = 0) :
    numerify_coins coins = 0 := by
  have key : ∀ (l : List Nat), (∀ i ∈ l, coins i = 0) →
      l.foldl (fun out i => Nat.lor ((out * 2) % 2 ^ 32) (coins i)) 0 = 0 := by
    intro l
    induction l with
    | nil => intro _; rfl
    | cons a t ih =>
        intro hl
        have ha : coins a = 0 := hl a (List.mem_cons_self a t)
        simp only [List.foldl_cons, ha]
        have : Nat.lor ((0 * 2) % 2 ^ 32) 0 = 0 := rfl
        rw [this]
        exact ih (fun i hi => hl i (List.mem_cons_of_mem a hi))
  exact key (List.range 32) (fun i hi => h i (List.mem_range.1 hi))

theorem draw_zero {coins : Tape} (h : ∀ i, i < 32 → coins i = 0) :
    draw coins = F.fin 0 := by
  rw [draw, numerify_coins_zero h]
  rw [show ((0 : Nat) : ℚ) = 0 from rfl]
  rw [F.div_fin 0 (by norm_num), zero_div]

theorem hruaM_fin (g b k : ℚ) :
    hruaM (F.fin g) (F.fin b) (F.fin k) = F.fin (min k (g + b - k)) := by
  rw [hruaM, hruaPopsize, F.add_fin, F.sub_fin, F.fmin_fin]

theorem hruaMingoodbad_fin (g b : ℚ) :
    hruaMingoodbad (F.fin g) (F.fin b) = F.fin (min g b) := by
  rw [hruaMingoodbad, F.fmin_fin]

theorem hruaD4_fin (g b : ℚ) (h : g + b ≠ 0) :
    hruaD4 (F.fin g) (F.fin b) = F.fin (min g b / (g + b)) := by
  rw [hruaD4, hruaMingoodbad_fin, hruaPopsize, F.add_fin, F.div_fin _ h]

theorem hruaD6_fin (g b k : ℚ) (h : g + b ≠ 0) :
    hruaD6 (F.fin g) (F.fin b) (F.fin k) =
      F.fin (min k (g + b - k) * (min g b / (g + b)) + 1/2) := by
  rw [hruaD6, hruaM_fin, hruaD4_fin g b h, F.mul_fin, F.add_fin]

theorem hruaD8_fin_pos (g b k : ℚ) (hg : 0 ≤ g) (hb : 0 ≤ b) (hk : 10 < k)
    (hkN : k ≤ g + b) :
    ∃ q : ℚ, hruaD8 (F.fin g) (F.fin b) (F.fin k) = F.fin q ∧ 0 < q := by
  have hk0 : (0:ℚ) < k := lt_trans (by norm_num) hk
  have hpop : (0:ℚ) < g + b := lt_of_lt_of_le hk0 hkN
  have hpop1 : (0:ℚ) < g + b - 1 := by linarith
  have hmge : (0:ℚ) ≤ min g b := le_min hg hb
  have hd4le : min g b / (g + b) ≤ 1 := by
    rw [div_le_one hpop]
    calc min g b ≤ g := min_le_left g b
    _ ≤ g + b := by linarith
  have hd4ge : (0:ℚ) ≤ min g b / (g + b) := div_nonneg hmge hpop.le
  have hmle : min k (g + b - k) ≤ g + b :=
    le_trans (min_le_left _ _) hkN
  have harg : (0:ℚ) ≤ ((g + b - min k (g + b - k)) * k * (min g b / (g + b)) *
      (1 - min g b / (g + b))) / (g + b - 1) + 1/2 := by
    have h1 : (0:ℚ) ≤ g + b - min k (g + b - k) := by linarith
    have h2 : (0:ℚ) ≤ 1 - min g b / (g + b) := by linarith
    have := div_nonneg
      (mul_nonneg (mul_nonneg (mul_nonneg h1 hk0.le) hd4ge) h2) hpop1.le
    linarith
  rw [hruaD8, hruaD7, hruaM_fin, hruaPopsize, F.add_fin, F.sub_fin,
    hruaD4_fin g b hpop.ne', hruaD5, hruaD4_fin g b hpop.ne', F.sub_fin,
    F.mul_fin, F.mul_fin, F.mul_fin, F.sub_fin, F.div_fin _ hpop1.ne',
    F.add_fin, sqrtF_fin harg, hruaD1, hruaD2, F.mul_fin, F.add_fin]
  refine ⟨_, rfl, ?_⟩
  have hs := ratSqrt_nonneg (((g + b - min k (g + b - k)) * k * (min g b / (g + b)) *
      (1 - min g b / (g + b))) / (g + b - 1) + 1/2)
  have : (0:ℚ) ≤ 17155277699214135 / 10 ^ 16 *
      ratSqrt (((g + b - min k (g + b - k)) * k * (min g b / (g + b)) *
        (1 - min g b / (g + b))) / (g + b - 1) + 1/2) :=
    mul_nonneg (by norm_num) hs
  have h2 : (0:ℚ) < 8989161620588988 / 10 ^ 16 := by norm_num
  linarith

theorem hruaW_zero_draws {q6 q8 : ℚ} (h8 : 0 < q8) :
    hruaW (F.fin 0) (F.fin 0) (F.fin q6) (F.fin q8) = F.inf false := by
  rw [hruaW, F.sub_fin, F.mul_fin, F.div_fin_zero_neg (by nlinarith), F.add_fin_neginf]

theorem hruaLoop_allreject (x y d6 d8 d10 d11 mgb m mxgb : F)
    (hcond : F.flt (hruaW x y d6 d8) epsF ∨ F.fle d11 (hruaW x y d6 d8)) :
    ∀ (fuel : Nat), ∀ (count : Int), 1 ≤ fuel → count + fuel = 10 →
      hruaLoop x y d6 d8 d10 d11 mgb m mxgb fuel count =
        some (.error .samplerDiverged) := by
  intro fuel
  induction fuel with
  | zero => intro count h1 _; omega
  | succ n ih =>
      intro count _ h2
      rw [hruaLoop]
      by_cases h10 : count + 1 = 10
      · rw [if_pos h10]
      · rw [if_neg h10]
        rw [hruaW] at hcond
        simp only []
        rw [if_pos hcond]
        exact ih (count + 1) (by omega) (by omega)

theorem hruaLoopCount_allreject (x y d6 d8 d10 d11 mgb m mxgb : F)
    (hcond : F.flt (hruaW x y d6 d8) epsF ∨ F.fle d11 (hruaW x y d6 d8)) :
    ∀ (fuel : Nat), ∀ (count : Int), 1 ≤ fuel → count + fuel = 10 →
      hruaLoopCount x y d6 d8 d10 d11 mgb m mxgb fuel count =
        some (.error .samplerDiverged, fuel - 1) := by
  intro fuel
  induction fuel with
  | zero => intro count h1 _; omega
  | succ n ih =>
      intro count _ h2
      rw [hruaLoopCount]
      by_cases h10 : count + 1 = 10
      · rw [if_pos h10]
        have : n = 0 := by omega
        simp [this]
      · rw [if_neg h10]
        rw [hruaW] at hcond
        rw [if_pos hcond]
        rw [ih (count + 1) (by omega) (by omega)]
        have hn : 1 ≤ n := by omega
        have hcast : n - 1 + 1 = n + 1 - 1 := by omega
        simp [hcast]

theorem hruaLoopCount_fst (x y d6 d8 d10 d11 mgb m mxgb : F) :
    ∀ (fuel : Nat) (count : Int),
      (hruaLoopCount x y d6 d8 d10 d11 mgb m mxgb fuel count).map Prod.fst =
        hruaLoop x y d6 d8 d10 d11 mgb m mxgb fuel count := by
  intro fuel
  induction fuel with
  | zero => intro count; rfl
  | succ n ih =>
      intro count
      rw [hruaLoopCount, hruaLoop]
      by_cases h10 : count + 1 = 10
      · rw [if_pos h10, if_pos h10]
        rfl
      · rw [if_neg h10, if_neg h10]
        have hmap : ∀ o : Option (Except OpeError F × Nat),
            (o.map (fun r => (r.1, r.2 + 1))).map Prod.fst = o.map Prod.fst := by
          intro o; cases o <;> rfl
        set w := F.add d6 (F.div (F.mul d8 (F.sub y (F.fin (1/2)))) x) with hw
        by_cases hc1 : F.flt w epsF ∨ F.fle d11 w
        · rw [if_pos hc1, if_pos hc1, hmap, ih]
        · rw [if_neg hc1, if_neg hc1]
          set t := F.sub d10 (F.add (F.add (F.add
            (loggam (F.add (F.floorF w) (F.fin 1)))
            (loggam (F.add (F.sub mgb (F.floorF w)) (F.fin 1))))
            (loggam (F.add (F.sub m (F.floorF w)) (F.fin 1))))
            (loggam (F.add (F.add (F.sub mxgb m) (F.floorF w)) (F.fin 1)))) with ht
          by_cases hc2 : F.fle (F.sub (F.mul x (F.sub (F.fin 4) x)) (F.fin 3)) t
          · rw [if_pos hc2, if_pos hc2]
            rfl
          · rw [if_neg hc2, if_neg hc2]
            by_cases hc3 : F.fle (F.fin 1) (F.mul x (F.sub x t))
            · rw [if_pos hc3, if_pos hc3, hmap, ih]
            · rw [if_neg hc3, if_neg hc3]
              by_cases hc4 : F.fle (F.mul (F.fin 2) (lnF x)) t
              · rw [if_pos hc4, if_pos hc4]
                rfl
              · rw [if_neg hc4, if_neg hc4, hmap, ih]

theorem hruaLoopCount_run (x y d6 d8 d10 d11 mgb m mxgb : F) :
    ∀ (n : Nat) (count : Int), count + (n + 1) = 10 →
      (∃ z k, hruaLoopCount x y d6 d8 d10 d11 mgb m mxgb (n + 1) count =
          some (.ok z, k) ∧ 1 ≤ k ∧ k ≤ n) ∨
      hruaLoopCount x y d6 d8 d10 d11 mgb m mxgb (n + 1) count =
        some (.error .samplerDiverged, n) := by
  intro n
  induction n with
  | zero =>
      intro count h
      right
      rw [hruaLoopCount, if_pos (by omega : count + 1 = 10)]
  | succ n ih =>
      intro count h
      rw [hruaLoopCount, if_neg (by omega : ¬ count + 1 = 10)]
      set w := F.add d6 (F.div (F.mul d8 (F.sub y (F.fin (1/2)))) x) with hw
      by_cases hc1 : F.flt w epsF ∨ F.fle d11 w
      · rw [if_pos hc1]
        rcases ih (count + 1) (by omega) with ⟨z, k, heq, hk1, hkn⟩ | heq
        · left
          exact ⟨z, k + 1, by rw [heq]; rfl, by omega, by omega⟩
        · right
          rw [heq]
          rfl
      · rw [if_neg hc1]
        set t := F.sub d10 (F.add (F.add (F.add
          (loggam (F.add (F.floorF w) (F.fin 1)))
          (loggam (F.add (F.sub mgb (F.floorF w)) (F.fin 1))))
          (loggam (F.add (F.sub m (F.floorF w)) (F.fin 1))))
          (loggam (F.add (F.add (F.sub mxgb m) (F.floorF w)) (F.fin 1)))) with ht
        by_cases hc2 : F.fle (F.sub (F.mul x (F.sub (F.fin 4) x)) (F.fin 3)) t
        · rw [if_pos hc2]
          exact Or.inl ⟨F.floorF w, 1, rfl, le_refl 1, by omega⟩
        · rw [if_neg hc2]
          by_cases hc3 : F.fle (F.fin 1) (F.mul x (F.sub x t))
          · rw [if_pos hc3]
            rcases ih (count + 1) (by omega) with ⟨z, k, heq, hk1, hkn⟩ | heq
            · exact Or.inl ⟨z, k + 1, by rw [heq]; rfl, by omega, by omega⟩
            · right
              rw [heq]
              rfl
          · rw [if_neg hc3]
            by_cases hc4 : F.fle (F.mul (F.fin 2) (lnF x)) t
            · rw [if_pos hc4]
              exact Or.inl ⟨F.floorF w, 1, rfl, le_refl 1, by omega⟩
            · rw [if_neg hc4]
              rcases ih (count + 1) (by omega) with ⟨z, k, heq, hk1, hkn⟩ | heq
              · exact Or.inl ⟨z, k + 1, by rw [heq]; rfl, by omega, by omega⟩
              · right
                rw [heq]
                rfl

/-- C9: for every coin tape whose first 32 entries are zero (so every
PRNG draw returns exactly 0.0) and every parameter set dispatched to HRUA
(`k > 10`, under rhyper's documented preconditions), the per-iteration
quantity `w = d6 + d8*(y - 0.5)/x` divides by `x = 0` and is negative
infinity, so every iteration fast-rejects, no iteration can accept, and
`rhyper` always fails at the iteration cap with SamplerDiverged. -/
theorem c9_rhyper_zero_tape_diverges (good bad k : Int) (coins : Tape) (fuel : Nat)
    (hg : 0 ≤ good) (hb : 0 ≤ bad) (hk : 10 < k) (hkN : k ≤ good + bad)
    (hcoins : ∀ i, i < 32 → coins i = 0) :
    rhyper fuel coins (F.fin k) (F.fin good) (F.fin bad) =
        some (.error .samplerDiverged) ∧
      hruaW (draw coins) (draw coins) (hruaD6 (F.fin good) (F.fin bad) (F.fin k))
        (hruaD8 (F.fin good) (F.fin bad) (F.fin k)) = F.inf false := by
  have hgq : (0:ℚ) ≤ (good : ℚ) := by exact_mod_cast hg
  have hbq : (0:ℚ) ≤ (bad : ℚ) := by exact_mod_cast hb
  have hkq : (10:ℚ) < (k : ℚ) := by exact_mod_cast hk
  have hkNq : (k:ℚ) ≤ (good : ℚ) + (bad : ℚ) := by exact_mod_cast hkN
  have hpop : (0:ℚ) < (good : ℚ) + (bad : ℚ) := by linarith
  obtain ⟨q8, h8, h8pos⟩ := hruaD8_fin_pos (good : ℚ) (bad : ℚ) (k : ℚ) hgq hbq hkq hkNq
  have h6 := hruaD6_fin (good : ℚ) (bad : ℚ) (k : ℚ) hpop.ne'
  have hdraw := draw_zero hcoins
  have hW : hruaW (draw coins) (draw coins)
      (hruaD6 (F.fin good) (F.fin bad) (F.fin k))
      (hruaD8 (F.fin good) (F.fin bad) (F.fin k)) = F.inf false := by
    rw [hdraw, h6, h8]
    exact hruaW_zero_draws h8pos
  have hcond : F.flt (hruaW (draw coins) (draw coins)
        (hruaD6 (F.fin good) (F.fin bad) (F.fin k))
        (hruaD8 (F.fin good) (F.fin bad) (F.fin k))) epsF ∨
      F.fle (hruaD11 (F.fin good) (F.fin bad) (F.fin k))
        (hruaW (draw coins) (draw coins)
          (hruaD6 (F.fin good) (F.fin bad) (F.fin k))
          (hruaD8 (F.fin good) (F.fin bad) (F.fin k))) := by
    left
    rw [hW]
    exact F.flt_neginf_fin _
  refine ⟨?_, hW⟩
  rw [rhyper, if_pos (show F.flt (F.fin 10) (F.fin (k : ℚ)) from hkq)]
  rw [hypergeometric_hrua,
    hruaLoop_allreject _ _ _ _ _ _ _ _ _ hcond 10 0 (by norm_num) (by norm_num)]

/-- Witness for C9 at good = bad = 20, k = 11, the all-zero tape. -/
theorem c9_rhyper_zero_tape_diverges_witness :
    rhyper 0 zeroTape (F.fin 11) (F.fin 20) (F.fin 20) =
        some (.error .samplerDiverged) ∧
      hruaW (draw zeroTape) (draw zeroTape) (hruaD6 (F.fin 20) (F.fin 20) (F.fin 11))
        (hruaD8 (F.fin 20) (F.fin 20) (F.fin 11)) = F.inf false := by
  have h := c9_rhyper_zero_tape_diverges 20 20 11 zeroTape 0
    (by decide) (by decide) (by decide) (by decide) (fun i _ => rfl)
  exact_mod_cast h

/-- C6 (amended): the rejection loop as invoked by `hypergeometric_hrua`
(fuel 10, counter started at 0) always terminates, executes its
draw-and-test body at most 9 times (the `count == 10` panic fires on
entering the 10th pass, BEFORE that pass's body), fails with
SamplerDiverged exactly when 9 bodies complete without acceptance, and
otherwise returns normally with an accepted value; the instrumented loop
projects onto the source loop. -/
theorem c6_hrua_cap_is_nine_bodies (x y d6 d8 d10 d11 mgb m mxgb : F) :
    ((∃ z k, hruaLoopCount x y d6 d8 d10 d11 mgb m mxgb 10 0 = some (.ok z, k) ∧
        1 ≤ k ∧ k ≤ 9) ∨
      hruaLoopCount x y d6 d8 d10 d11 mgb m mxgb 10 0 =
        some (.error .samplerDiverged, 9)) ∧
    (hruaLoopCount x y d6 d8 d10 d11 mgb m mxgb 10 0).map Prod.fst =
      hruaLoop x y d6 d8 d10 d11 mgb m mxgb 10 0 :=
  ⟨hruaLoopCount_run x y d6 d8 d10 d11 mgb m mxgb 9 0 (by norm_num),
   hruaLoopCount_fst x y d6 d8 d10 d11 mgb m mxgb 10 0⟩

/-- C6 counterexample: at good = bad = 20, k = 11 with the all-zero tape,
the loop fails with SamplerDiverged after executing its body exactly 9
times — not 10 as the claim states. -/
theorem c6_counterexample :
    hruaLoopCount (draw zeroTape) (draw zeroTape)
        (hruaD6 (F.fin 20) (F.fin 20) (F.fin 11)) (hruaD8 (F.fin 20) (F.fin 20) (F.fin 11))
        (hruaD10 (F.fin 20) (F.fin 20) (F.fin 11)) (hruaD11 (F.fin 20) (F.fin 20) (F.fin 11))
        (hruaMingoodbad (F.fin 20) (F.fin 20)) (hruaM (F.fin 20) (F.fin 20) (F.fin 11))
        (hruaMaxgoodbad (F.fin 20) (F.fin 20)) 10 0 =
      some (.error .samplerDiverged, 9) ∧
    hypergeometric_hrua zeroTape (F.fin 20) (F.fin 20) (F.fin 11) =
      some (.error .samplerDiverged) ∧ (9 : Nat) ≠ 10 := by
  obtain ⟨q8, h8, h8pos⟩ := hruaD8_fin_pos 20 20 11
    (by norm_num) (by norm_num) (by norm_num) (by norm_num)
  have h6 := hruaD6_fin 20 20 11 (by norm_num)
  have hdraw := draw_zero (show ∀ i, i < 32 → zeroTape i = 0 from fun i _ => rfl)
  have hcond : F.flt (hruaW (draw zeroTape) (draw zeroTape)
        (hruaD6 (F.fin 20) (F.fin 20) (F.fin 11))
        (hruaD8 (F.fin 20) (F.fin 20) (F.fin 11))) epsF ∨
      F.fle (hruaD11 (F.fin 20) (F.fin 20) (F.fin 11))
        (hruaW (draw zeroTape) (draw zeroTape)
          (hruaD6 (F.fin 20) (F.fin 20) (F.fin 11))
          (hruaD8 (F.fin 20) (F.fin 20) (F.fin 11))) := by
    left
    rw [hdraw, h6, h8, hruaW_zero_draws h8pos]
    exact F.flt_neginf_fin _
  rw [hruaW] at hcond
  refine ⟨?_, ?_, by norm_num⟩
  · have := hruaLoopCount_allreject (draw zeroTape) (draw zeroTape)
      (hruaD6 (F.fin 20) (F.fin 20) (F.fin 11)) (hruaD8 (F.fin 20) (F.fin 20) (F.fin 11))
      (hruaD10 (F.fin 20) (F.fin 20) (F.fin 11)) (hruaD11 (F.fin 20) (F.fin 20) (F.fin 11))
      (hruaMingoodbad (F.fin 20) (F.fin 20)) (hruaM (F.fin 20) (F.fin 20) (F.fin 11))
      (hruaMaxgoodbad (F.fin 20) (F.fin 20)) (by rw [hruaW]; exact hcond) 10 0
      (by norm_num) (by norm_num)
    exact this
  · rw [hypergeometric_hrua,
      hruaLoop_allreject _ _ _ _ _ _ _ _ _ (by rw [hruaW]; exact hcond) 10 0
        (by norm_num) (by norm_num)]

/-- C7 counterexample: at good = 50, bad = 111, k = 67 the code's `d9` is
the NON-integral quotient 3468/163 = 21.276..., not the floored integer
pivot ⌊3468/163⌋ = 21 that the claim states. -/
theorem c7_counterexample :
    hruaD9 (F.fin 50) (F.fin 111) (F.fin 67) = F.fin (3468/163) ∧
    (3468/163 : ℚ) ≠ 21 ∧ ⌊(3468/163 : ℚ)⌋ = 21 := by
  refine ⟨?_, by norm_num, by norm_num⟩
  simp only [hruaD9, hruaM_fin, hruaMingoodbad_fin, hruaPopsize, F.add_fin, F.mul_fin]
  rw [F.div_fin _ (by norm_num : (50:ℚ) + 111 + 2 ≠ 0)]
  norm_num [F.fin.injEq]

/-- C7 (amended): the pivot `d9` is the UNFLOORED real quotient
`(s + 1)(m + 1)/(N + 2)` with `s = min(k, N - k)`, `m = min(good, bad)`,
`N = good + bad`, and `d10` is the sum of the four loggam terms evaluated
at this unfloored `d9`. -/
theorem c7_d9_unfloored (good bad k : Int) (hg : 0 ≤ good) (hb : 0 ≤ bad) :
    hruaD9 (F.fin good) (F.fin bad) (F.fin k) =
      F.fin ((min (k:ℚ) ((good:ℚ) + (bad:ℚ) - (k:ℚ)) + 1) *
        (min (good:ℚ) (bad:ℚ) + 1) / ((good:ℚ) + (bad:ℚ) + 2)) ∧
    hruaD10 (F.fin good) (F.fin bad) (F.fin k) =
      F.add (F.add (F.add
        (loggam (F.add (hruaD9 (F.fin good) (F.fin bad) (F.fin k)) (F.fin 1)))
        (loggam (F.add (F.sub (hruaMingoodbad (F.fin good) (F.fin bad))
          (hruaD9 (F.fin good) (F.fin bad) (F.fin k))) (F.fin 1))))
        (loggam (F.add (F.sub (hruaM (F.fin good) (F.fin bad) (F.fin k))
          (hruaD9 (F.fin good) (F.fin bad) (F.fin k))) (F.fin 1))))
        (loggam (F.add (F.add (F.sub (hruaMaxgoodbad (F.fin good) (F.fin bad))
          (hruaM (F.fin good) (F.fin bad) (F.fin k)))
          (hruaD9 (F.fin good) (F.fin bad) (F.fin k))) (F.fin 1))) := by
  have hden : (good:ℚ) + (bad:ℚ) + 2 ≠ 0 := by
    have h1 : (0:ℚ) ≤ (good:ℚ) := by exact_mod_cast hg
    have h2 : (0:ℚ) ≤ (bad:ℚ) := by exact_mod_cast hb
    linarith
  refine ⟨?_, rfl⟩
  simp only [hruaD9, hruaM_fin, hruaMingoodbad_fin, hruaPopsize, F.add_fin, F.mul_fin]
  rw [F.div_fin _ hden]

/-- Witness for the amended C7 at good = 50, bad = 111, k = 67. -/
theorem c7_d9_unfloored_witness :
    hruaD9 (F.fin 50) (F.fin 111) (F.fin 67) =
      F.fin ((min (67:ℚ) (50 + 111 - 67) + 1) * (min (50:ℚ) 111 + 1) / (50 + 111 + 2)) := by
  have := (c7_d9_unfloored 50 111 67 (by decide) (by decide)).1
  exact_mod_cast this

/-- C4: `rhyper` evaluated at k = 0, good = 1, bad = 1 with the all-zero
tape (so the single PRNG value is exactly 0.0) returns 1, which lies
OUTSIDE the hypergeometric support
[max(0, k - bad), min(k, good)] = [0, 0]: the HYP loop decrements `k`
past zero (the `k == 0` break never fires for sample = 0) and drags `y`
to 0, so `z = d2 - y = 1` although no ball is drawn. -/
theorem c4_rhyper_escapes_support :
    rhyper 3 zeroTape (F.fin 0) (F.fin 1) (F.fin 1) = some (.ok (F.fin 1)) ∧
    ¬ (max (0:ℚ) (0 - 1) ≤ 1 ∧ (1:ℚ) ≤ min 0 1) := by
  refine ⟨?_, by norm_num⟩
  have hdraw : draw zeroTape = F.fin 0 := draw_zero (fun i _ => rfl)
  have hd1 : F.sub (F.add (F.fin 1) (F.fin 1)) (F.fin 0) = F.fin 2 := by
    rw [F.add_fin, F.sub_fin]; norm_num
  have hd2 : F.fmin (F.fin 1) (F.fin 1) = F.fin 1 := by
    rw [F.fmin_fin, min_self]
  have e1 : F.div (F.fin 1) (F.add (F.fin 2) (F.fin 0)) = F.fin (1/2) := by
    rw [F.add_fin, show (2:ℚ) + 0 = 2 by norm_num, F.div_fin _ (by norm_num)]
  have e2 : F.div (F.fin 1) (F.add (F.fin 2) (F.fin (0 - 1))) = F.fin 1 := by
    rw [F.add_fin, show (2:ℚ) + (0 - 1) = 1 by norm_num, F.div_fin _ (by norm_num)]
    norm_num
  have hstep1 : F.sub (F.fin 1) (F.floorF (F.add (F.fin 0) (F.fin (1/2)))) = F.fin 1 := by
    rw [F.add_fin, F.floorF_fin, F.sub_fin]
    norm_num [F.fin.injEq]
  have hstep2 : F.sub (F.fin 1) (F.floorF (F.add (F.fin 0) (F.fin 1))) = F.fin 0 := by
    rw [F.add_fin, F.floorF_fin, F.sub_fin]
    norm_num [F.fin.injEq]
  have hloop : hypLoop (F.fin 0) (F.fin 2) 3 (F.fin 1) (F.fin 0) = some (F.fin 0) := by
    rw [show (3:Nat) = 2 + 1 from rfl, hypLoop,
      if_pos (show F.flt (F.fin 0) (F.fin 1) from by norm_num [F.flt_fin]),
      e1, hstep1]
    rw [if_neg (show ¬ F.sub (F.fin 0) (F.fin 1) = F.fin 0 from by
      rw [F.sub_fin]; norm_num [F.fin.injEq])]
    rw [F.sub_fin, show (2:Nat) = 1 + 1 from rfl, hypLoop,
      if_pos (show F.flt (F.fin 0) (F.fin 1) from by norm_num [F.flt_fin]),
      e2, hstep2]
    rw [if_neg (show ¬ F.sub (F.fin (0-1)) (F.fin 1) = F.fin 0 from by
      rw [F.sub_fin]; norm_num [F.fin.injEq])]
    rw [F.sub_fin, show (1:Nat) = 0 + 1 from rfl, hypLoop,
      if_neg (show ¬ F.flt (F.fin 0) (F.fin 0) from by norm_num [F.flt_fin])]
  rw [rhyper, if_neg (show ¬ F.flt (F.fin 10) (F.fin 0) from by norm_num [F.flt_fin])]
  rw [hypergeometric_hyp, hdraw, hd1, hd2, hloop]
  simp [F.flt_fin, F.sub_fin]

theorem encryptLoop_step (tg : TapeOracle) (rh : RhyperOracle) (fuel : Nat) :
    encrypt_recursive ⟨tg, rh, ⟨0, 3⟩, ⟨0, 3⟩⟩ (fuel + 1) 0 ⟨0, 1⟩ ⟨0, 1⟩ =
      encrypt_recursive ⟨tg, rh, ⟨0, 3⟩, ⟨0, 3⟩⟩ fuel 0 ⟨0, 1⟩ ⟨0, 1⟩ := rfl

theorem encryptLoop_none (tg : TapeOracle) (rh : RhyperOracle) :
    ∀ fuel : Nat,
      encrypt_recursive ⟨tg, rh, ⟨0, 3⟩, ⟨0, 3⟩⟩ fuel 0 ⟨0, 1⟩ ⟨0, 1⟩ = none := by
  intro fuel
  induction fuel with
  | zero => rfl
  | succ n ih => rw [encryptLoop_step]; exact ih

/-- C3: the recursion of encrypt does NOT always terminate.  With
in_range = out_range = [0, 3] (sizes 4 ≤ 4, a legal context) and
plaintext 0, the recursion reaches the state I = O = [0, 1] after one
step and then reproduces that state forever — the edges are taken from
`self.in_range` / `self.out_range`, so the input size stops shrinking —
and `encrypt` runs out of any amount of fuel: it diverges for every
tape-generator and sampler oracle. -/
theorem c3_encrypt_recursion_diverges (tg : TapeOracle) (rh : RhyperOracle)
    (fuel : Nat) :
    encrypt ⟨tg, rh, ⟨0, 3⟩, ⟨0, 3⟩⟩ fuel 0 = none := by
  cases fuel with
  | zero => rfl
  | succ n =>
      have h1 : encrypt ⟨tg, rh, ⟨0, 3⟩, ⟨0, 3⟩⟩ (n + 1) 0 =
          encrypt_recursive ⟨tg, rh, ⟨0, 3⟩, ⟨0, 3⟩⟩ n 0 ⟨0, 1⟩ ⟨0, 1⟩ := rfl
      rw [h1]
      exact encryptLoop_none tg rh n

/-- C1: the split point is computed from the ORIGINAL ranges, not the
current ones.  In the run of C3's scenario (context ranges [0, 3] and
[0, 3], plaintext 0), the first step descends to the current state
I = O = [0, 1]; at that state the source computes
`mid = (self.out_range.start - 1) + ceil(self.out_range.size()/2) = 1`
(conjunct 3) and reproduces the state (conjunct 2), whereas the
claim's formula on the CURRENT output range gives
`(O.start - 1) + ceil(O.size()/2) = 0` (conjunct 4). -/
theorem c1_mid_from_original_ranges (tg : TapeOracle) (rh : RhyperOracle)
    (fuel : Nat) :
    encrypt ⟨tg, rh, ⟨0, 3⟩, ⟨0, 3⟩⟩ (fuel + 1) 0 =
        encrypt_recursive ⟨tg, rh, ⟨0, 3⟩, ⟨0, 3⟩⟩ fuel 0 ⟨0, 1⟩ ⟨0, 1⟩ ∧
      encrypt_recursive ⟨tg, rh, ⟨0, 3⟩, ⟨0, 3⟩⟩ (fuel + 1) 0 ⟨0, 1⟩ ⟨0, 1⟩ =
        encrypt_recursive ⟨tg, rh, ⟨0, 3⟩, ⟨0, 3⟩⟩ fuel 0 ⟨0, 1⟩ ⟨0, 1⟩ ∧
      opeMid ⟨0, 3⟩ = 1 ∧ specMid ⟨0, 1⟩ = 0 ∧ (1 : Int) ≠ 0 :=
  ⟨rfl, encryptLoop_step tg rh fuel, by decide, by decide, by decide⟩

/-- C2: encryption is NOT order-preserving on this code, because encrypt
aborts before producing any ciphertext.  With in_range = [0, 3] and
out_range = [10, 17] (sizes 4 ≤ 8, a legal context), the first internal
step computes mid = 13 from the output space and hands it to
`sample_hgd`, whose `in_range.contains(nsample)` check panics
(13 is not in [0, 3]) — for EVERY plaintext, key and sampler, so no pair
p < q has encrypt(p) < encrypt(q). -/
theorem c2_encrypt_aborts_for_all_plaintexts (tg : TapeOracle)
    (rh : RhyperOracle) (fuel : Nat) :
    (ValueRange.mk 0 3).size ≤ (ValueRange.mk 10 17).size ∧
      (ValueRange.mk 0 3).contains 0 ∧ (ValueRange.mk 0 3).contains 1 ∧
      (0 : Int) < 1 ∧
      encrypt ⟨tg, rh, ⟨0, 3⟩, ⟨10, 17⟩⟩ (fuel + 1) 0 =
        some (.error .nsampleNotInRange) ∧
      encrypt ⟨tg, rh, ⟨0, 3⟩, ⟨10, 17⟩⟩ (fuel + 1) 1 =
        some (.error .nsampleNotInRange) :=
  ⟨by decide, by decide, by decide, by decide, rfl, rfl⟩

theorem sampleUniformAux_no_exhaustion (coins : Tape) (start stop : Int) (bc : Nat) :
    stop - start + 1 ≤ 2 ^ (32 - bc) →
    sampleUniformAux start stop coins bc ≠ .error .coinsExhausted := by
  induction start, stop, coins, bc using sampleUniformAux.induct with
  | case1 start stop coins bc h =>
      intro _
      rw [sampleUniformAux]
      simp [h]
  | case2 start stop coins bc h h2 =>
      intro hb
      exfalso
      have h32 : 32 - bc = 0 := by omega
      rw [h32, pow_zero] at hb
      omega
  | case3 start stop coins bc h h2 mid bit h3 ih =>
      intro hb
      rw [sampleUniformAux]
      simp only [if_neg h, if_neg h2, if_pos h3]
      apply ih
      have hp : (2:Int) ^ (32 - bc) = 2 * 2 ^ (32 - (bc + 1)) := by
        have he : 32 - bc = (32 - (bc + 1)) + 1 := by omega
        rw [he, pow_succ]
        ring
      rw [hp] at hb
      have hM : (0:Int) < 2 ^ (32 - (bc + 1)) := pow_pos (by norm_num) _
      have hm : mid = (start + stop) / 2 := rfl
      omega
  | case4 start stop coins bc h h2 mid bit h3 h4 ih =>
      intro hb
      rw [sampleUniformAux]
      simp only [if_neg h, if_neg h2, if_neg h3, if_pos h4]
      apply ih
      have hp : (2:Int) ^ (32 - bc) = 2 * 2 ^ (32 - (bc + 1)) := by
        have he : 32 - bc = (32 - (bc + 1)) + 1 := by omega
        rw [he, pow_succ]
        ring
      rw [hp] at hb
      have hM : (0:Int) < 2 ^ (32 - (bc + 1)) := pow_pos (by norm_num) _
      have hm : mid = (start + stop) / 2 := rfl
      omega
  | case5 start stop coins bc h h2 mid h3 h4 =>
      intro _
      rw [sampleUniformAux]
      simp [h, h2, h3, h4]

/-- C5 (amended): `sample_uniform` fails with CoinsExhausted only when
more than 32 bits are required by the binary search — the tape the
function takes is `[u8; 32]` and the guard is `bit_counter > 31` — so for
any range whose size is at most 2^32 the call never fails with
CoinsExhausted (each halving step at least halves the range size, hence
at most 32 bits are consumed; a non-binary tape entry yields the distinct
binary-units error, never CoinsExhausted). -/
theorem c5_no_coins_exhausted_up_to_2_pow_32 (r : ValueRange) (coins : Tape)
    (h : r.size ≤ 2 ^ 32) :
    sample_uniform r coins ≠ .error .coinsExhausted := by
  rw [sample_uniform]
  by_cases h0 : r.size = 0
  · simp [h0]
  · rw [if_neg h0]
    apply sampleUniformAux_no_exhaustion
    have : r.size = r.stop - r.start + 1 := rfl
    rw [this] at h
    simpa using h

/-- Witness for the amended C5 at the range [0, 3] with the all-zero
tape. -/
theorem c5_no_coins_exhausted_witness :
    sample_uniform ⟨0, 3⟩ zeroTape ≠ .error .coinsExhausted :=
  c5_no_coins_exhausted_up_to_2_pow_32 ⟨0, 3⟩ zeroTape (by decide)

theorem sampleUniformAux_pow_exhausts :
    ∀ (k : Nat) (bc : Nat), 1 ≤ k → bc + k = 33 →
      sampleUniformAux 0 (2 ^ k - 1) zeroTape bc = .error .coinsExhausted := by
  intro k
  induction k with
  | zero => intro bc h _; omega
  | succ n ih =>
      intro bc _ hbc
      by_cases hn : n = 0
      · subst hn
        have hbc32 : bc = 32 := by omega
        subst hbc32
        rw [sampleUniformAux]
        norm_num
      · rw [sampleUniformAux]
        have hsz : ¬ ((2:Int) ^ (n+1) - 1 - 0 + 1 ≤ 1) := by
          have h2 : (2:Int) ≤ 2 ^ (n+1) := by
            calc (2:Int) = 2 ^ 1 := by norm_num
            _ ≤ 2 ^ (n+1) := pow_le_pow_right₀ (by norm_num) (by omega)
          omega
        rw [if_neg hsz, if_neg (by omega : ¬ bc > 31)]
        have hmid : (0 + ((2:Int) ^ (n+1) - 1)).ediv 2 = 2 ^ n - 1 := by
          have h1 : (0:Int) + (2 ^ (n+1) - 1) = 1 + (2 ^ n - 1) * 2 := by
            rw [pow_succ]; ring
          rw [show ((0:Int) + (2 ^ (n+1) - 1)).ediv 2 = (0 + ((2:Int) ^ (n+1) - 1)) / 2 from rfl,
            h1, Int.add_mul_ediv_right _ _ (by norm_num : (2:Int) ≠ 0)]
          norm_num
        have hz : zeroTape bc = 0 := rfl
        simp only [hz, if_pos rfl, hmid]
        exact ih (bc + 1) (by omega) (by omega)

/-- C5 counterexample: a range of size 2^33 (which is at most 2^128, so
the claim says the call can never fail with CoinsExhausted on a full
tape) makes `sample_uniform` fail with CoinsExhausted on the all-zero
(valid, binary) tape: the binary search needs 33 bits but the source caps
`bit_counter` at 31 — its tape is 32 entries, not 128. -/
theorem c5_counterexample :
    (ValueRange.mk 0 (2 ^ 33 - 1)).size = 2 ^ 33 ∧
      ((2 : Int) ^ 33 ≤ 2 ^ 128) ∧
      sample_uniform ⟨0, 2 ^ 33 - 1⟩ zeroTape = .error .coinsExhausted := by
  refine ⟨by norm_num [ValueRange.size], by norm_num, ?_⟩
  rw [sample_uniform, if_neg (by norm_num [ValueRange.size])]
  exact sampleUniformAux_pow_exhausts 33 0 (by norm_num) (by norm_num)

theorem sampleUniformAuxCount_binary (coins : Tape) (start stop : Int) (bc : Nat) :
    (sampleUniformAuxCount start stop coins bc).1 ≠ .error .nonBinaryCoin →
    ∀ i, bc ≤ i → i < bc + (sampleUniformAuxCount start stop coins bc).2 →
      coins i = 0 ∨ coins i = 1 := by
  induction start, stop, coins, bc using sampleUniformAuxCount.induct with
  | case1 start stop coins bc h =>
      rw [sampleUniformAuxCount]
      simp only [if_pos h]
      intro _ i hi1 hi2
      omega
  | case2 start stop coins bc h h2 =>
      rw [sampleUniformAuxCount]
      simp only [if_neg h, if_pos h2]
      intro _ i hi1 hi2
      omega
  | case3 start stop coins bc h h2 mid bit h3 ih =>
      rw [sampleUniformAuxCount]
      simp only [if_neg h, if_neg h2, if_pos h3]
      intro hne i hi1 hi2
      have hsame : (sampleUniformAuxCount start mid coins (bc + 1)).2 =
          (sampleUniformAuxCount start ((start + stop).ediv 2) coins (bc + 1)).2 := rfl
      by_cases hieq : i = bc
      · subst hieq
        exact Or.inl h3
      · exact ih hne i (by omega) (by omega)
  | case4 start stop coins bc h h2 mid bit h3 h4 ih =>
      rw [sampleUniformAuxCount]
      simp only [if_neg h, if_neg h2, if_neg h3, if_pos h4]
      intro hne i hi1 hi2
      have hsame : (sampleUniformAuxCount (mid + 1) stop coins (bc + 1)).2 =
          (sampleUniformAuxCount ((start + stop).ediv 2 + 1) stop coins (bc + 1)).2 := rfl
      by_cases hieq : i = bc
      · subst hieq
        exact Or.inr h4
      · exact ih hne i (by omega) (by omega)
  | case5 start stop coins bc h h2 mid h3 h4 =>
      rw [sampleUniformAuxCount]
      simp only [if_neg h, if_neg h2, if_neg h3, if_neg h4]
      intro hne
      exact absurd rfl hne

theorem sampleUniformAuxCount_congr (c2 : Tape) (c1 : Tape) (start stop : Int) (bc : Nat) :
    (∀ i, bc ≤ i → i < bc + (sampleUniformAuxCount start stop c1 bc).2 → c1 i = c2 i) →
    sampleUniformAuxCount start stop c1 bc = sampleUniformAuxCount start stop c2 bc := by
  induction start, stop, c1, bc using sampleUniformAuxCount.induct with
  | case1 start stop c1 bc h =>
      intro _
      rw [sampleUniformAuxCount, sampleUniformAuxCount, if_pos h, if_pos h]
  | case2 start stop c1 bc h h2 =>
      intro _
      rw [sampleUniformAuxCount, sampleUniformAuxCount, if_neg h, if_neg h,
        if_pos h2, if_pos h2]
  | case3 start stop c1 bc h h2 mid bit h3 ih =>
      intro hagree
      rw [sampleUniformAuxCount] at hagree
      simp only [if_neg h, if_neg h2, if_pos h3] at hagree
      have hsame : (sampleUniformAuxCount start mid c1 (bc + 1)).2 =
          (sampleUniformAuxCount start ((start + stop).ediv 2) c1 (bc + 1)).2 := rfl
      have hc2 : c2 bc = 0 := by
        rw [← hagree bc le_rfl (by omega)]
        exact h3
      rw [sampleUniformAuxCount, sampleUniformAuxCount]
      simp only [if_neg h, if_neg h2]
      rw [if_pos (show c1 bc = 0 from h3), if_pos hc2]
      have hrec := ih (fun i hi1 hi2 => hagree i (by omega) (by omega))
      rw [show sampleUniformAuxCount start ((start + stop).ediv 2) c1 (bc + 1) =
          sampleUniformAuxCount start ((start + stop).ediv 2) c2 (bc + 1) from hrec]
  | case4 start stop c1 bc h h2 mid bit h3 h4 ih =>
      intro hagree
      rw [sampleUniformAuxCount] at hagree
      simp only [if_neg h, if_neg h2, if_neg h3, if_pos h4] at hagree
      have hsame : (sampleUniformAuxCount (mid + 1) stop c1 (bc + 1)).2 =
          (sampleUniformAuxCount ((start + stop).ediv 2 + 1) stop c1 (bc + 1)).2 := rfl
      have hc2 : c2 bc = 1 := by
        rw [← hagree bc le_rfl (by omega)]
        exact h4
      have hc2ne : ¬ (c2 bc = 0) := by
        rw [hc2]
        norm_num
      rw [sampleUniformAuxCount, sampleUniformAuxCount]
      simp only [if_neg h, if_neg h2]
      rw [if_neg (show ¬ (c1 bc = 0) from h3), if_neg hc2ne,
        if_pos (show c1 bc = 1 from h4), if_pos hc2]
      have hrec := ih (fun i hi1 hi2 => hagree i (by omega) (by omega))
      rw [show sampleUniformAuxCount ((start + stop).ediv 2 + 1) stop c1 (bc + 1) =
          sampleUniformAuxCount ((start + stop).ediv 2 + 1) stop c2 (bc + 1) from hrec]
  | case5 start stop c1 bc h h2 mid h3 h4 =>
      intro hagree
      rw [sampleUniformAuxCount] at hagree
      simp only [if_neg h, if_neg h2, if_neg h3, if_neg h4] at hagree
      have hc2 : c2 bc = c1 bc := (hagree bc le_rfl (by omega)).symm
      have hc2ne0 : ¬ (c2 bc = 0) := by rw [hc2]; exact h3
      have hc2ne1 : ¬ (c2 bc = 1) := by rw [hc2]; exact h4
      rw [sampleUniformAuxCount, sampleUniformAuxCount]
      simp only [if_neg h, if_neg h2]
      rw [if_neg (show ¬ (c1 bc = 0) from h3), if_neg hc2ne0,
        if_neg (show ¬ (c1 bc = 1) from h4), if_neg hc2ne1]

theorem intEdiv_eq_div (a b : Int) : a.ediv b = a / b := rfl

/-- C10: `sample_uniform` validates every consumed tape entry — whenever
the result is not the distinct binary-units error, every byte it read was
0 or 1 (contrapositive: reading any other byte fails with the
"coins must be binary units" panic instead of interpreting it as a
bit) — and entries beyond the last consumed index are never inspected:
two tapes that agree on the consumed prefix produce identical results
and identical consumption. -/
theorem c10_sample_uniform_validation_and_locality (r : ValueRange) (c1 c2 : Tape) :
    (sample_uniform r c1 ≠ .error .nonBinaryCoin →
      ∀ i, i < sampleUniformConsumed r c1 → c1 i = 0 ∨ c1 i = 1) ∧
    ((∀ i, i < sampleUniformConsumed r c1 → c1 i = c2 i) →
      sample_uniform r c1 = sample_uniform r c2 ∧
        sampleUniformConsumed r c1 = sampleUniformConsumed r c2) := by
  rw [sample_uniform, sample_uniform, sampleUniformConsumed, sampleUniformConsumed]
  by_cases h0 : r.size = 0
  · simp only [if_pos h0]
    exact ⟨fun _ i hi => absurd hi (by omega), fun _ => ⟨by trivial, by trivial⟩⟩
  · simp only [if_neg h0]
    constructor
    · intro hne i hi
      rw [← sampleUniformAuxCount_fst] at hne
      exact sampleUniformAuxCount_binary c1 r.start r.stop 0 hne i
        (by omega) (by omega)
    · intro hagree
      have heq := sampleUniformAuxCount_congr c2 c1 r.start r.stop 0
        (fun i _ hi2 => hagree i (by omega))
      constructor
      · rw [← sampleUniformAuxCount_fst, ← sampleUniformAuxCount_fst, heq]
      · rw [heq]

/-- Witness for C10: the range [0, 5] consumes 3 bits; a tape holding the
byte 9 at every index from 3 on (invalid as a coin) gives the same result
and consumption as the all-zero tape, because those entries are never
inspected. -/
theorem c10_sample_uniform_validation_witness :
    sample_uniform ⟨0, 5⟩ zeroTape =
        sample_uniform ⟨0, 5⟩ (fun i => if i < 3 then 0 else 9) ∧
      sampleUniformConsumed ⟨0, 5⟩ zeroTape =
        sampleUniformConsumed ⟨0, 5⟩ (fun i => if i < 3 then 0 else 9) := by
  apply (c10_sample_uniform_validation_and_locality ⟨0, 5⟩ zeroTape
    (fun i => if i < 3 then 0 else 9)).2
  intro i hi
  have e3 : sampleUniformAuxCount 0 0 zeroTape 3 = (.ok 0, 0) := by
    rw [sampleUniformAuxCount]
    norm_num
  have e2 : sampleUniformAuxCount 0 1 zeroTape 2 = (.ok 0, 1) := by
    rw [sampleUniformAuxCount]
    norm_num [zeroTape, intEdiv_eq_div, e3]
  have e1 : sampleUniformAuxCount 0 2 zeroTape 1 = (.ok 0, 2) := by
    rw [sampleUniformAuxCount]
    norm_num [zeroTape, intEdiv_eq_div, e2]
  have e0 : sampleUniformAuxCount 0 5 zeroTape 0 = (.ok 0, 3) := by
    rw [sampleUniformAuxCount]
    norm_num [zeroTape, intEdiv_eq_div, e1]
  have hc : sampleUniformConsumed ⟨0, 5⟩ zeroTape = 3 := by
    rw [sampleUniformConsumed, if_neg (by norm_num [ValueRange.size]), e0]
  rw [hc] at hi
  simp [zeroTape, hi]

/-- C8 counterexample: the integral label 23 is serialized by the source
(`data.to_string()`, Rust `Display` for f64) as the bytes of "23" —
[50, 51] — and NOT as the bytes of "23.0" = [50, 51, 46, 48] that the
claim states. -/
theorem c8_counterexample :
    labelString 23 = "23" ∧
      strBytes (labelString 23) = [50, 51] ∧
      strBytes "23.0" = [50, 51, 46, 48] ∧
      strBytes (labelString 23) ≠ strBytes "23.0" := by
  refine ⟨rfl, by decide, by decide, by decide⟩

/-- C8 (amended): `tape_gen` renders the label in its plain decimal
textual form with NO trailing ".0" for integral doubles (Rust `Display`;
23 serializes as "23"), and two labels with byte-equal textual forms
produce the same tape (the tape is a deterministic function of the
serialized bytes through HMAC-SHA256 and AES-CTR, both modelled by the
`prf` oracle). -/
theorem c8_label_serialization (prf : PrfOracle) (a b : Int)
    (h : labelString a = labelString b) :
    tape_gen prf a = tape_gen prf b ∧ labelString 23 = "23" := by
  constructor
  · rw [tape_gen, tape_gen, h]
  · rfl

/-- Witness for the amended C8 at labels a = b = 23 and a trivial
pipeline oracle. -/
theorem c8_label_serialization_witness :
    tape_gen (fun _ => zeroTape) 23 = tape_gen (fun _ => zeroTape) 23 ∧
      labelString 23 = "23" :=
  c8_label_serialization (fun _ => zeroTape) 23 23 rfl
